import Mathlib

/-!
Shallow embedding of `src/lib/Analysis/NodeIRScheduler.cpp` (the ONNC
node-IR list scheduler) and verification of the specification's claims
about it.

Modelling conventions:
* `onnx::Node*` identities become indices into the graph's node list
  (graph order = list order); `onnx::Value*` identities become `Nat` ids.
* `v->node()` (the producing node of a value) is recovered by scanning
  the node list for the node whose `outputs` contain the value.
* machine `unsigned` arithmetic is `Nat` with explicit `% 2 ^ 32` where
  the source can wrap (the degree decrement `it->second -= 1`).
* `std::unordered_map` keyed by pointers becomes an association list
  (for the resource ledger) or a position-indexed list (for the degree
  map, whose keys are exactly the graph's nodes).
* fallible steps (the `assert` in degree propagation, the null
  `insertBefore` in boundary insertion) return `Option`.
-/

namespace OnncSched

/-- Node kind tag (`onnx::Symbol`).  `undefined` is `onnx::kUndefined`,
`ret` is `onnx::kReturn`, `load`/`store` are the boundary markers. -/
inductive Kind where
  | undefined
  | ret
  | load
  | store
  | op (name : String)
deriving DecidableEq, Repr

instance : Inhabited Kind := ⟨.undefined⟩

/-- An operator node: kind tag, ordered input value ids, ordered output
value ids. -/
structure Node where
  kind : Kind
  inputs : List Nat
  outputs : List Nat
deriving DecidableEq, Repr

instance : Inhabited Node := ⟨⟨.undefined, [], []⟩⟩

/-- A graph: nodes in graph order, external input/output value ids, and
a counter for allocating fresh value ids (`Graph::create`). -/
structure Graph where
  nodes : List Node
  inputs : List Nat
  outputs : List Nat
  nextVal : Nat
deriving DecidableEq, Repr

/-- `v->node()`: the producing node of value `v`, as the first node in
graph order listing `v` among its outputs; `none` when the value is
unbound (dangling). -/
def producerOf (g : Graph) (v : Nat) : Option Nat :=
  (List.range g.nodes.length).find? (fun i => v ∈ (g.nodes.getD i default).outputs)

/-- `v->uses()`: the consuming nodes of `v`, one occurrence per input
slot bound to `v`, in graph order. -/
def usersOf (g : Graph) (v : Nat) : List Nat :=
  (List.range g.nodes.length).flatMap
    (fun i => ((g.nodes.getD i default).inputs.filter (fun w => w = v)).map (fun _ => i))

/-- `HasInsertedLoadStoreNode`: the last node of the graph is a Store
marker (`pGraph.nodes().rbegin()->kind() == onnx::Symbol("Store")`).
An empty graph dereferences `rbegin()` on nothing in the source; we
return `false` there. -/
def HasInsertedLoadStoreNode (g : Graph) : Bool :=
  match g.nodes.getLast? with
  | some n => n.kind = Kind.store
  | none => false

/-- The scan over `v->uses()` computing the earliest consumer:
`if (!first->isBefore(u.user)) first = u.user` with `isBefore` the
graph-order comparison on node positions. -/
def earliestUser (g : Graph) (v : Nat) : Option Nat :=
  (usersOf g v).foldl
    (fun first u =>
      match first with
      | none => some u
      | some f => if ¬ f < u then some u else some f)
    none

/-- The scan over `v->uses()` computing the latest consumer:
`if (last->isBefore(u.user)) last = u.user`. -/
def latestUser (g : Graph) (v : Nat) : Option Nat :=
  (usersOf g v).foldl
    (fun last u =>
      match last with
      | none => some u
      | some f => if f < u then some u else some f)
    none

/-- One iteration of the graph-inputs loop of `InsertLoadStoreNode`:
create a Load node, insert it before the earliest consumer of `v`, and
rebind every use of `v` to the Load's fresh output
(`v->replaceAllUsesWith(loadN->output())`).  A value with no consumer
gives `first == nullptr` and `insertBefore(nullptr)` in the source
(undefined behaviour); we leave the graph unchanged on that path. -/
def insertLoadForInput (g : Graph) (v : Nat) : Graph :=
  match earliestUser g v with
  | none => g
  | some firstIdx =>
    let outV := g.nextVal
    let loadN : Node := ⟨Kind.load, [], [outV]⟩
    let nodes1 := g.nodes.insertIdx firstIdx loadN
    let nodes2 := nodes1.map
      (fun n => { n with inputs := n.inputs.map (fun w => if w = v then outV else w) })
    { g with nodes := nodes2, nextVal := g.nextVal + 1 }

/-- One iteration of the graph-outputs loop of `InsertLoadStoreNode`:
create a Store node consuming `v` (with one fresh output, as
`pGraph.create(Symbol("Store"), {v})` defaults to one output) and
insert it before the latest consumer of `v`.  No-consumer values hit
the same `insertBefore(nullptr)` undefined behaviour; unchanged here. -/
def insertStoreForOutput (g : Graph) (v : Nat) : Graph :=
  match latestUser g v with
  | none => g
  | some lastIdx =>
    let outV := g.nextVal
    let storeN : Node := ⟨Kind.store, [v], [outV]⟩
    { g with nodes := g.nodes.insertIdx lastIdx storeN, nextVal := g.nextVal + 1 }

/-- `InsertLoadStoreNode`: wrap every external input in a Load and every
external output in a Store. -/
def InsertLoadStoreNode (g : Graph) : Graph :=
  g.outputs.foldl insertStoreForOutput (g.inputs.foldl insertLoadForInput g)

/-- `ExeResource`: a resource class with its concurrency capacity. -/
structure ExeRes where
  rid : Nat
  numUnits : Nat
deriving DecidableEq, Repr

/-- A `(Node, remainingCycles)` entry of a resource's user list. -/
structure RUser where
  user : Nat
  remainCycles : Nat
deriving DecidableEq, Repr

instance : Inhabited RUser := ⟨⟨0, 0⟩⟩

/-- `m_ExeResUsers`: map from resource class to its current user list,
as an association list (entries created on first reference). -/
abbrev ResMap := List (ExeRes × List RUser)

/-- The cost-model oracle (`DLATargetBackend`/`TargetTransformInfo`):
`queryExeResType` and `getOperatorCost(-, kCycleCount)`. -/
structure TTI where
  resOf : Node → ExeRes
  cost : Node → Nat

def lookupRes (m : ResMap) (r : ExeRes) : Option (List RUser) :=
  match m.find? (fun e => e.1 = r) with
  | some e => some e.2
  | none => none

def setRes (m : ResMap) (r : ExeRes) (l : List RUser) : ResMap :=
  m.map (fun e => if e.1 = r then (e.1, l) else e)

/-- `m_ExeResUsers[res] = {}` when `find` fails: create an empty entry. -/
def ensureRes (m : ResMap) (r : ExeRes) : ResMap :=
  match lookupRes m r with
  | some _ => m
  | none => m ++ [(r, [])]

/-- `isExeResAvailable`: the user count of the resource's entry is
strictly below `numUnits`.  The source dereferences `find` without
checking (call sites guarantee the entry exists); an absent entry
yields `false` here. -/
def isExeResAvailable (m : ResMap) (r : ExeRes) : Bool :=
  match lookupRes m r with
  | some l => l.length < r.numUnits
  | none => false

/-- `addExeResUser`: query the cycle cost and append a new user to the
resource's list (`operator[]` creates the entry when absent). -/
def addExeResUser (tti : TTI) (g : Graph) (m : ResMap) (r : ExeRes) (u : Nat) : ResMap :=
  let c := tti.cost (g.nodes.getD u default)
  match lookupRes m r with
  | some l => setRes m r (l ++ [⟨u, c⟩])
  | none => m ++ [(r, [⟨u, c⟩])]

/-- The release loop of `updateResList` exactly as written:
`for (int i = rmList.size() - 1; i >= 0; --i) userList.erase(userList.begin() + i);`
— the loop counter `i` itself is used as the erase position (not
`rmList[i]`), so it erases positions `k-1, k-2, ..., 0` where `k` is
the number of collected indices. -/
def eraseFirstLoop (l : List RUser) : Nat → List RUser
  | 0 => l
  | k + 1 => eraseFirstLoop (l.eraseIdx k) k

/-- The indices collected into `rmList`: positions whose (already
decremented) remaining count is zero. -/
def zeroIdxs (l : List RUser) : List Nat :=
  (List.range l.length).filter (fun i => (l.getD i default).remainCycles = 0)

/-- `updateResList`: global minimum of `remainCycles` (initialised to
`std::numeric_limits<unsigned>::max()`), subtract it from every user,
collect the users hitting zero into `rmList`, then run the release
loop.  Returns the minimum. -/
def updateResList (m : ResMap) : ResMap × Nat :=
  let minCycle := m.foldl
    (fun mc e => e.2.foldl (fun mc u => min mc u.remainCycles) mc) (2 ^ 32 - 1)
  let m' := m.map (fun e =>
    let userList := e.2.map (fun u => { u with remainCycles := u.remainCycles - minCycle })
    let rmList := zeroIdxs userList
    (e.1, eraseFirstLoop userList rmList.length))
  (m', minCycle)

/-- `DegreeMap`: position-indexed by node index; `none` marks a node
absent from the map (the `kUndefined` sentinel, skipped by
`BuildDegreeMap`). -/
abbrev DegreeMap := List (Option Nat)

/-- A warning emitted by `BuildDegreeMap` for a dangling input:
the node kind and the unbound value id printed by the source. -/
abbrev Warning := Kind × Nat

/-- The inner loop of `BuildDegreeMap`: start from `inputs().size()`
and `--degcnt` (emitting a warning) for every input value not bound to
a node. -/
def degScan (g : Graph) (k : Kind) : Nat → List Warning → List Nat → Nat × List Warning
  | degcnt, warns, [] => (degcnt, warns)
  | degcnt, warns, v :: rest =>
    if producerOf g v = none then
      degScan g k (degcnt - 1) (warns ++ [(k, v)]) rest
    else
      degScan g k degcnt warns rest

/-- `BuildDegreeMap`: for every node whose kind is not the undefined
sentinel, record `inputs().size()` minus one per dangling input; the
warning stream is accumulated in graph order. -/
def BuildDegreeMap (g : Graph) : DegreeMap × List Warning :=
  g.nodes.foldl
    (fun acc n =>
      if n.kind = Kind.undefined then (acc.1 ++ [none], acc.2)
      else
        let dw := degScan g n.kind n.inputs.length acc.2 n.inputs
        (acc.1 ++ [some dw.1], dw.2))
    ([], [])

/-- The seed loop of `runOnModule`: push every non-undefined node with
degree zero onto the worklist, in graph order. -/
def seedWorklist (g : Graph) (dmap : DegreeMap) : List Nat :=
  (List.range g.nodes.length).filter
    (fun i => decide ((g.nodes.getD i default).kind ≠ Kind.undefined
                      ∧ dmap.getD i none = some 0))

/-- The unsigned decrement `it->second -= 1` (wraps at `2 ^ 32`). -/
def decU32 (d : Nat) : Nat := (d + (2 ^ 32 - 1)) % 2 ^ 32

/-- One degree decrement in the propagation loop: look the user up in
the degree map (`assert(it != dmap.end())` — a missing entry is the
internal-consistency fault, `none` here), decrement, and push the user
when the new count is zero. -/
def decUser (dmap : DegreeMap) (wl : List Nat) (u : Nat) : Option (DegreeMap × List Nat) :=
  match dmap.getD u none with
  | none => none
  | some d =>
    let d' := decU32 d
    some (dmap.set u (some d'), if d' = 0 then wl ++ [u] else wl)

/-- `for (auto u : v->uses())`: skip `kReturn` users, decrement the
rest. -/
def propUsers (g : Graph) : DegreeMap × List Nat → List Nat → Option (DegreeMap × List Nat)
  | st, [] => some st
  | st, u :: rest =>
    if (g.nodes.getD u default).kind = Kind.ret then propUsers g st rest
    else
      match decUser st.1 st.2 u with
      | none => none
      | some st' => propUsers g st' rest

/-- `for (onnx::Value *v : n->outputs())`. -/
def propOutputs (g : Graph) : DegreeMap × List Nat → List Nat → Option (DegreeMap × List Nat)
  | st, [] => some st
  | st, v :: rest =>
    match propUsers g st (usersOf g v) with
    | none => none
    | some st' => propOutputs g st' rest

/-- `for (onnx::Node *n : greedyPickNextNodes(worklist))`: propagate
the admitted nodes one after the other. -/
def propPicked (g : Graph) : DegreeMap × List Nat → List Nat → Option (DegreeMap × List Nat)
  | st, [] => some st
  | st, n :: rest =>
    match propOutputs g st (g.nodes.getD n default).outputs with
    | none => none
    | some st' => propPicked g st' rest

/-- The candidate scan of `greedyPickNextNodes`, threading the ledger
and recording `next` (admitted nodes) and `rmList` (their worklist
positions). -/
def greedyScan (tti : TTI) (g : Graph) (m : ResMap) (i : Nat) :
    List Nat → List Nat × List Nat × ResMap
  | [] => ([], [], m)
  | c :: rest =>
    let res := tti.resOf (g.nodes.getD c default)
    let m1 := ensureRes m res
    if isExeResAvailable m1 res then
      let m2 := addExeResUser tti g m1 res c
      let r := greedyScan tti g m2 (i + 1) rest
      (c :: r.1, i :: r.2.1, r.2.2)
    else
      let r := greedyScan tti g m1 (i + 1) rest
      (r.1, r.2.1, r.2.2)

/-- `greedyPickNextNodes`: the scan followed by the reverse-order erase
of the admitted candidates
(`for (it = rmList.rbegin(); it != rmList.rend(); ++it) pCands.erase(pCands.begin() + *it)`).
Returns (admitted set, updated worklist, updated ledger). -/
def greedyPickNextNodes (tti : TTI) (g : Graph) (m : ResMap) (cands : List Nat) :
    List Nat × List Nat × ResMap :=
  let r := greedyScan tti g m 0 cands
  (r.1, r.2.1.foldr (fun i l => l.eraseIdx i) cands, r.2.2)

/-- Scheduler scratch state: resource ledger, worklist, degree map. -/
structure SState where
  res : ResMap
  wl : List Nat
  dmap : DegreeMap
deriving DecidableEq, Repr

/-- One iteration of the `while (!worklist.empty())` body: greedy
admission followed by degree propagation for every admitted node.
Note the loop body never calls `updateResList`. -/
def schedStep (tti : TTI) (g : Graph) (st : SState) : Option SState :=
  let r := greedyPickNextNodes tti g st.res st.wl
  match propPicked g (st.dmap, r.2.1) r.1 with
  | none => none
  | some dw => some ⟨r.2.2, dw.2, dw.1⟩

/-- Outcome of running the while loop with bounded fuel. -/
inductive LoopOut where
  | done (st : SState)
  | fault
  | outOfFuel
deriving DecidableEq, Repr

/-- The `while (!worklist.empty())` loop, fuel-bounded. -/
def runLoop (tti : TTI) (g : Graph) : Nat → SState → LoopOut
  | 0, st => if st.wl = [] then .done st else .outOfFuel
  | fuel + 1, st =>
    if st.wl = [] then .done st
    else
      match schedStep tti g st with
      | none => .fault
      | some st' => runLoop tti g fuel st'

/-- `Pass::ReturnType` values used by the source. -/
inductive PassRet where
  | kPassFailure
  | kModuleNoChanged
deriving DecidableEq, Repr

/-- Outcome of `runOnModule`: result code plus the graph and the
member ledger `m_ExeResUsers` as left after the call. -/
inductive RunOutcome where
  | ok (r : PassRet) (g : Graph) (ledger : ResMap)
  | fault
  | outOfFuel
deriving DecidableEq, Repr

/-- `NodeIRScheduler::runOnModule`.  `dlatb` is `m_DLATB` (backend
bound or not), `prevLedger` the member ledger before the call.  With no
backend the function returns `kPassFailure` before touching anything.
Otherwise `clear()` empties the ledger, and the boundary insertion runs
unconditionally: the guard line reads
`if (!HasInsertedLoadStoreNode(graph));` — the trailing semicolon makes
the conditional body empty, so `InsertLoadStoreNode(graph)` always
executes. -/
def runOnModule (dlatb : Option TTI) (prevLedger : ResMap) (fuel : Nat) (g : Graph) :
    RunOutcome :=
  match dlatb with
  | none => .ok .kPassFailure g prevLedger
  | some tti =>
    let g' := InsertLoadStoreNode g
    let dm := BuildDegreeMap g'
    let wl := seedWorklist g' dm.1
    match runLoop tti g' fuel ⟨[], wl, dm.1⟩ with
    | .done st => .ok .kModuleNoChanged g' st.res
    | .fault => .fault
    | .outOfFuel => .outOfFuel

/-! ### Spec-side definitions and concrete inputs -/

/-- Number of dangling (producer-less) inputs of a node, the quantity
the spec subtracts from the raw input count. -/
def danglingCount (g : Graph) (n : Node) : Nat :=
  (n.inputs.filter (fun v => decide (producerOf g v = none))).length

/-- The warnings a single node contributes: one per dangling input. -/
def danglingWarns (g : Graph) (n : Node) : List Warning :=
  (n.inputs.filter (fun v => decide (producerOf g v = none))).map (fun v => (n.kind, v))

/-- Reference admission pass written from the spec's words: a single
left-to-right, order-preserving scan; a candidate is admitted iff its
resource class is available at the moment it is scanned; non-admitted
candidates are kept in their original relative order.  Returns
(admitted, kept, ledger). -/
def greedyPickSpec (tti : TTI) (g : Graph) (m : ResMap) :
    List Nat → List Nat × List Nat × ResMap
  | [] => ([], [], m)
  | c :: rest =>
    let res := tti.resOf (g.nodes.getD c default)
    let m1 := ensureRes m res
    if isExeResAvailable m1 res then
      let r := greedyPickSpec tti g (addExeResUser tti g m1 res c) rest
      (c :: r.1, r.2.1, r.2.2)
    else
      let r := greedyPickSpec tti g m1 rest
      (r.1, c :: r.2.1, r.2.2)

/-- The capacity invariant: no resource's user list exceeds its
`numUnits`. -/
def CapOK (m : ResMap) : Prop :=
  ∀ e ∈ m, e.2.length ≤ e.1.numUnits

/-- Per-node degree entry as the spec states it: absent for the
undefined sentinel, otherwise input count minus dangling count. -/
def degEntry (g : Graph) (n : Node) : Option Nat :=
  if n.kind = Kind.undefined then none
  else some (n.inputs.length - danglingCount g n)

/-- Per-node warning contribution: none for the undefined sentinel,
otherwise one warning per dangling input. -/
def warnEntry (g : Graph) (n : Node) : List Warning :=
  if n.kind = Kind.undefined then [] else danglingWarns g n

/-- C1 scenario graph: two independent ready nodes A (index 0) and
B (index 1), no external inputs/outputs. -/
def g1 : Graph := ⟨[⟨.op "A", [], [0]⟩, ⟨.op "B", [], [1]⟩], [], [], 2⟩

/-- C1 cost model: every node uses the single resource class of
capacity `numUnits = 1`, cycle cost 5. -/
def tti1 : TTI := ⟨fun _ => ⟨0, 1⟩, fun _ => 5⟩

/-- The scheduler state after seeding for `g1`. -/
def st1initial : SState := ⟨[], [0, 1], [some 0, some 0]⟩

/-- The state after round 1 on `g1`: A admitted and occupying the
resource, B still queued. -/
def st1after : SState := ⟨[(⟨0, 1⟩, [⟨0, 5⟩])], [1], [some 0, some 0]⟩

/-- C2 failing input: a graph that already ends in a Store marker
(node 1), with one external input (value 0) and one external output
(value 1). -/
def g2 : Graph := ⟨[⟨.op "Conv", [0], [1]⟩, ⟨.store, [1], [2]⟩], [0], [1], 3⟩

/-- C2 cost model: ample capacity so the run terminates. -/
def tti2 : TTI := ⟨fun _ => ⟨0, 100⟩, fun _ => 1⟩

/-- C4 failing input: finite acyclic graph of two independent nodes
sharing a capacity-1 resource. -/
def g4 : Graph := ⟨[⟨.op "C", [], [0]⟩, ⟨.op "D", [], [1]⟩], [], [], 2⟩

/-- C4 cost model: one resource class, `numUnits = 1`, cost 2. -/
def tti4 : TTI := ⟨fun _ => ⟨0, 1⟩, fun _ => 2⟩

/-- C5 scenario graph: node 1 has one input bound to the unproduced
external value 0 and one input bound to the output of node 0. -/
def g5 : Graph := ⟨[⟨.op "P", [], [1]⟩, ⟨.op "Q", [0, 1], [2]⟩], [], [], 3⟩

/-! ### Instrumented loop for trace properties (C9)

The scheduling loop itself does not record which nodes were ever pushed
onto the worklist, so "pushed at most once" is a trace property.  The
machine below is the same loop with two ghost logs: `pushed` collects
every worklist push (the initial seeds and every propagation push) and
`admLog` every node admitted by the greedy pass.  A projection lemma
ties each instrumented function back to its plain counterpart. -/

/-- Instrumented scheduler state: plain state plus push/admission logs. -/
structure IState where
  res : ResMap
  wl : List Nat
  dmap : DegreeMap
  pushed : List Nat
  admLog : List Nat
deriving DecidableEq, Repr

/-- `decUser` with the push log. -/
def decUserI (dmap : DegreeMap) (wl pushed : List Nat) (u : Nat) :
    Option (DegreeMap × List Nat × List Nat) :=
  match dmap.getD u none with
  | none => none
  | some d =>
    let d' := decU32 d
    some (dmap.set u (some d'),
          (if d' = 0 then wl ++ [u] else wl),
          (if d' = 0 then pushed ++ [u] else pushed))

/-- `propUsers` with the push log. -/
def propUsersI (g : Graph) :
    DegreeMap × List Nat × List Nat → List Nat → Option (DegreeMap × List Nat × List Nat)
  | st, [] => some st
  | st, u :: rest =>
    if (g.nodes.getD u default).kind = Kind.ret then propUsersI g st rest
    else
      match decUserI st.1 st.2.1 st.2.2 u with
      | none => none
      | some st' => propUsersI g st' rest

/-- `propOutputs` with the push log. -/
def propOutputsI (g : Graph) :
    DegreeMap × List Nat × List Nat → List Nat → Option (DegreeMap × List Nat × List Nat)
  | st, [] => some st
  | st, v :: rest =>
    match propUsersI g st (usersOf g v) with
    | none => none
    | some st' => propOutputsI g st' rest

/-- `propPicked` with the push log. -/
def propPickedI (g : Graph) :
    DegreeMap × List Nat × List Nat → List Nat → Option (DegreeMap × List Nat × List Nat)
  | st, [] => some st
  | st, n :: rest =>
    match propOutputsI g st (g.nodes.getD n default).outputs with
    | none => none
    | some st' => propPickedI g st' rest

/-- One loop iteration with logs: greedy admission (appended to
`admLog`) then propagation (pushes appended to `pushed`). -/
def schedStepI (tti : TTI) (g : Graph) (st : IState) : Option IState :=
  let r := greedyPickNextNodes tti g st.res st.wl
  match propPickedI g (st.dmap, r.2.1, st.pushed) r.1 with
  | none => none
  | some dwp => some ⟨r.2.2, dwp.2.1, dwp.1, dwp.2.2, st.admLog ++ r.1⟩

/-- The state right after `BuildDegreeMap` and the seed scan: the seeds
are exactly the pushes so far, nothing admitted yet. -/
def initIState (g : Graph) : IState :=
  let dm := BuildDegreeMap g
  let wl := seedWorklist g dm.1
  ⟨[], wl, dm.1, wl, []⟩

/-- `n` instrumented loop iterations from the seeded state. -/
def iterSchedI (tti : TTI) (g : Graph) : Nat → Option IState
  | 0 => some (initIState g)
  | n + 1 =>
    match iterSchedI tti g n with
    | none => none
    | some st => schedStepI tti g st

/-- Forget the logs. -/
def toSState (st : IState) : SState := ⟨st.res, st.wl, st.dmap⟩

/-- Initial degree of a node as the source computes it: input count
minus dangling count (= the number of produced input slots). -/
def d0 (g : Graph) (u : Nat) : Nat :=
  (g.nodes.getD u default).inputs.length - danglingCount g (g.nodes.getD u default)

/-- Number of degree decrements the propagation of the admitted set `A`
delivers to node `u`: its input slots whose producer lies in `A`
(`ret` users are skipped by the propagation, hence receive none). -/
def decCnt (g : Graph) (A : List Nat) (u : Nat) : Nat :=
  if (g.nodes.getD u default).kind = Kind.ret then 0
  else
    ((g.nodes.getD u default).inputs.filter
      (fun v =>
        match producerOf g v with
        | some p => decide (p ∈ A)
        | none => false)).length

/-- IR well-formedness assumed for the run invariants, matching the
spec's data model: a value has at most one producing node (`producerOf`
finds exactly the node listing it as an output), output lists are
duplicate-free, the undefined sentinel consumes no produced values, and
degrees fit in `unsigned`. -/
structure WFGraph (g : Graph) : Prop where
  producerMatch : ∀ i, i < g.nodes.length →
    ∀ v ∈ (g.nodes.getD i default).outputs, producerOf g v = some i
  outsNodup : ∀ i, i < g.nodes.length → (g.nodes.getD i default).outputs.Nodup
  undefNoProduced : ∀ i, i < g.nodes.length →
    (g.nodes.getD i default).kind = Kind.undefined →
    ∀ v ∈ (g.nodes.getD i default).inputs, producerOf g v = none
  smallDeg : ∀ i, i < g.nodes.length →
    (g.nodes.getD i default).inputs.length < 2 ^ 32

/-- Mid-step invariant of the instrumented loop: the degree map equals
the initial degrees minus the decrements delivered by the accounted
admissions `A`; the push log is, up to permutation, the worklist plus
the accounted admissions plus the admitted-but-not-yet-propagated
`pend`; all of it duplicate-free and inside the degree map's domain;
and a node is in the push log exactly when its current count is zero. -/
def MidInv (g : Graph) (D : DegreeMap) (W P A pend : List Nat) : Prop :=
  D.length = g.nodes.length
  ∧ (∀ u, u < g.nodes.length →
      (D.getD u none = none ↔ (g.nodes.getD u default).kind = Kind.undefined))
  ∧ (∀ u, u < g.nodes.length → (g.nodes.getD u default).kind ≠ Kind.undefined →
      D.getD u none = some (d0 g u - decCnt g A u))
  ∧ List.Perm P (W ++ A ++ pend)
  ∧ (W ++ A ++ pend).Nodup
  ∧ (∀ u ∈ P, u < g.nodes.length ∧ (g.nodes.getD u default).kind ≠ Kind.undefined)
  ∧ (∀ u, u < g.nodes.length → (g.nodes.getD u default).kind ≠ Kind.undefined →
      (u ∈ P ↔ D.getD u none = some 0))

/-- The loop-level invariant: `MidInv` with no pending admissions. -/
def InvI (g : Graph) (st : IState) : Prop :=
  MidInv g st.dmap st.wl st.pushed st.admLog []

/-- Per-user decrement count of a single propagation stream `s`
(`ret` users are skipped, everyone else once per occurrence). -/
def cntS (g : Graph) (s : List Nat) (u : Nat) : Nat :=
  if (g.nodes.getD u default).kind = Kind.ret then 0 else s.count u

/-- The flattened user stream the propagation of node `n` walks. -/
def streamOf (g : Graph) (n : Nat) : List Nat :=
  (g.nodes.getD n default).outputs.flatMap (usersOf g)

/-- State of the instrumented loop on `g5` (with the `tti2` cost model)
after one iteration: node 0 admitted, node 1 pushed by propagation. -/
def stC9 : IState :=
  ⟨[(⟨0, 100⟩, [⟨0, 1⟩])], [1], [some 0, some 0], [0, 1], [0]⟩

-- ==== Theorems ====

/-! ### Helper lemmas -/

lemma runLoop_fixpoint (tti : TTI) (g : Graph) (st : SState)
    (h1 : st.wl ≠ []) (h2 : schedStep tti g st = some st) :
    ∀ fuel, runLoop tti g fuel st = .outOfFuel := by
  intro fuel
  induction fuel with
  | zero => simp [runLoop, h1]
  | succ f ih => simp [runLoop, h1, h2, ih]

lemma runLoop_step (tti : TTI) (g : Graph) (f : Nat) (st st' : SState)
    (h1 : st.wl ≠ []) (h2 : schedStep tti g st = some st') :
    runLoop tti g (f + 1) st = runLoop tti g f st' := by
  simp [runLoop, h1, h2]

lemma runLoop_g1 : ∀ fuel, runLoop tti1 g1 fuel st1initial = .outOfFuel := by
  have hfix : ∀ fuel, runLoop tti1 g1 fuel st1after = .outOfFuel :=
    runLoop_fixpoint tti1 g1 st1after (by decide) (by decide)
  intro fuel
  cases fuel with
  | zero => decide
  | succ f =>
    rw [runLoop_step tti1 g1 f st1initial st1after (by decide) (by decide)]
    exact hfix f

lemma runLoop_g4 : ∀ fuel,
    runLoop tti4 g4 fuel ⟨[], [0, 1], [some 0, some 0]⟩ = .outOfFuel := by
  have hfix : ∀ fuel,
      runLoop tti4 g4 fuel ⟨[(⟨0, 1⟩, [⟨0, 2⟩])], [1], [some 0, some 0]⟩ = .outOfFuel :=
    runLoop_fixpoint tti4 g4 _ (by decide) (by decide)
  intro fuel
  cases fuel with
  | zero => decide
  | succ f =>
    rw [runLoop_step tti4 g4 f _ ⟨[(⟨0, 1⟩, [⟨0, 2⟩])], [1], [some 0, some 0]⟩
      (by decide) (by decide)]
    exact hfix f

lemma foldl_min_empty (m : ResMap) (h : ∀ e ∈ m, e.2 = []) (init : Nat) :
    m.foldl (fun mc e => e.2.foldl (fun mc u => min mc u.remainCycles) mc) init = init := by
  induction m generalizing init with
  | nil => rfl
  | cons e rest ih =>
    have he : e.2 = [] := h e (List.mem_cons_self e rest)
    have hrest : ∀ e' ∈ rest, e'.2 = [] := fun e' h' => h e' (List.mem_cons_of_mem e h')
    simp only [List.foldl_cons, he, List.foldl_nil]
    exact ih hrest init

lemma map_upd_empty (c : Nat) (m : ResMap) (h : ∀ e ∈ m, e.2 = []) :
    m.map (fun e =>
      (e.1, eraseFirstLoop (e.2.map (fun u => { u with remainCycles := u.remainCycles - c }))
        (zeroIdxs (e.2.map (fun u => { u with remainCycles := u.remainCycles - c }))).length))
    = m := by
  induction m with
  | nil => rfl
  | cons e rest ih =>
    obtain ⟨r, l⟩ := e
    have he : l = [] := h (r, l) (List.mem_cons_self (r, l) rest)
    have hrest : ∀ e' ∈ rest, e'.2 = [] := fun e' h' => h e' (List.mem_cons_of_mem (r, l) h')
    subst he
    simp only [List.map_cons, List.map_nil]
    rw [ih hrest]
    rfl

lemma degScan_eq (g : Graph) (k : Kind) :
    ∀ (inputs : List Nat) (degcnt : Nat) (warns : List Warning),
      degScan g k degcnt warns inputs
        = (degcnt - (inputs.filter (fun v => decide (producerOf g v = none))).length,
           warns ++ (inputs.filter (fun v => decide (producerOf g v = none))).map
             (fun v => (k, v))) := by
  intro inputs
  induction inputs with
  | nil => intro degcnt warns; simp [degScan]
  | cons v rest ih =>
    intro degcnt warns
    by_cases hv : producerOf g v = none
    · have h1 : degScan g k degcnt warns (v :: rest)
          = degScan g k (degcnt - 1) (warns ++ [(k, v)]) rest := by
        simp [degScan, hv]
      have h2 : List.filter (fun v => decide (producerOf g v = none)) (v :: rest)
          = v :: List.filter (fun v => decide (producerOf g v = none)) rest := by
        simp [List.filter_cons, hv]
      rw [h1, ih, h2]
      simp only [List.length_cons, List.map_cons, Prod.mk.injEq]
      constructor
      · omega
      · simp
    · have h1 : degScan g k degcnt warns (v :: rest) = degScan g k degcnt warns rest := by
        simp [degScan, hv]
      have h2 : List.filter (fun v => decide (producerOf g v = none)) (v :: rest)
          = List.filter (fun v => decide (producerOf g v = none)) rest := by
        simp [List.filter_cons, hv]
      rw [h1, ih, h2]

lemma buildDegreeMap_fold (g : Graph) :
    ∀ (ns : List Node) (acc : DegreeMap × List Warning),
      ns.foldl
        (fun acc n =>
          if n.kind = Kind.undefined then (acc.1 ++ [none], acc.2)
          else
            let dw := degScan g n.kind n.inputs.length acc.2 n.inputs
            (acc.1 ++ [some dw.1], dw.2))
        acc
      = (acc.1 ++ ns.map (degEntry g), acc.2 ++ ns.flatMap (warnEntry g)) := by
  intro ns
  induction ns with
  | nil => intro acc; simp
  | cons n rest ih =>
    intro acc
    by_cases hk : n.kind = Kind.undefined
    · simp only [List.foldl_cons, if_pos hk]
      rw [ih]
      simp only [List.map_cons, List.flatMap_cons, degEntry, warnEntry, if_pos hk,
        Prod.mk.injEq]
      constructor
      · simp [List.append_assoc]
      · simp
    · simp only [List.foldl_cons, if_neg hk]
      rw [degScan_eq, ih]
      simp only [List.map_cons, List.flatMap_cons, degEntry, warnEntry, if_neg hk,
        danglingCount, danglingWarns, Prod.mk.injEq]
      constructor
      · simp [List.append_assoc]
      · simp [List.append_assoc]

lemma buildDegreeMap_eq (g : Graph) :
    BuildDegreeMap g = (g.nodes.map (degEntry g), g.nodes.flatMap (warnEntry g)) := by
  have h := buildDegreeMap_fold g g.nodes ([], [])
  simpa [BuildDegreeMap] using h

lemma getD_map_degEntry (g : Graph) (l : List Node) (i : Nat) (h : i < l.length) :
    (l.map (degEntry g)).getD i none = degEntry g (l.getD i default) := by
  have h' : i < (l.map (degEntry g)).length := by simpa using h
  rw [List.getD_eq_getElem?_getD, List.getElem?_eq_getElem h', List.getElem_map]
  rw [List.getD_eq_getElem?_getD, List.getElem?_eq_getElem h]
  rfl

lemma greedyScan_shift (tti : TTI) (g : Graph) :
    ∀ (cands : List Nat) (m : ResMap) (i : Nat),
      greedyScan tti g m (i + 1) cands
        = ((greedyScan tti g m i cands).1,
           (greedyScan tti g m i cands).2.1.map (· + 1),
           (greedyScan tti g m i cands).2.2) := by
  intro cands
  induction cands with
  | nil => intro m i; rfl
  | cons c rest ih =>
    intro m i
    simp only [greedyScan]
    by_cases hav : isExeResAvailable (ensureRes m (tti.resOf (g.nodes.getD c default)))
        (tti.resOf (g.nodes.getD c default))
    · simp only [if_pos hav, ih, List.map_cons]
    · simp only [if_neg hav, ih]

lemma foldr_eraseIdx_shift {α : Type} (c : α) (rest : List α) :
    ∀ idxs : List Nat,
      (idxs.map (· + 1)).foldr (fun i l => l.eraseIdx i) (c :: rest)
        = c :: idxs.foldr (fun i l => l.eraseIdx i) rest := by
  intro idxs
  induction idxs with
  | nil => rfl
  | cons a t ih =>
    simp only [List.map_cons, List.foldr_cons, ih, List.eraseIdx_cons_succ]

lemma greedyPick_eq_spec (tti : TTI) (g : Graph) :
    ∀ (cands : List Nat) (m : ResMap),
      greedyPickNextNodes tti g m cands = greedyPickSpec tti g m cands := by
  intro cands
  induction cands with
  | nil => intro m; rfl
  | cons c rest ih =>
    intro m
    simp only [greedyPickNextNodes, greedyPickSpec, greedyScan]
    by_cases hav : isExeResAvailable (ensureRes m (tti.resOf (g.nodes.getD c default)))
        (tti.resOf (g.nodes.getD c default))
    · simp only [if_pos hav, greedyScan_shift, List.foldr_cons, foldr_eraseIdx_shift,
        List.eraseIdx_cons_zero]
      rw [← ih]
      rfl
    · simp only [if_neg hav, greedyScan_shift, foldr_eraseIdx_shift]
      rw [← ih]
      rfl

lemma greedyPickSpec_sublist (tti : TTI) (g : Graph) :
    ∀ (cands : List Nat) (m : ResMap),
      (greedyPickSpec tti g m cands).1.Sublist cands
      ∧ (greedyPickSpec tti g m cands).2.1.Sublist cands := by
  intro cands
  induction cands with
  | nil => intro m; exact ⟨List.Sublist.refl [], List.Sublist.refl []⟩
  | cons c rest ih =>
    intro m
    simp only [greedyPickSpec]
    by_cases hav : isExeResAvailable (ensureRes m (tti.resOf (g.nodes.getD c default)))
        (tti.resOf (g.nodes.getD c default))
    · simp only [if_pos hav]
      exact ⟨List.Sublist.cons₂ c (ih _).1, List.Sublist.cons c (ih _).2⟩
    · simp only [if_neg hav]
      exact ⟨List.Sublist.cons c (ih _).1, List.Sublist.cons₂ c (ih _).2⟩

lemma greedyPickSpec_perm (tti : TTI) (g : Graph) :
    ∀ (cands : List Nat) (m : ResMap),
      List.Perm ((greedyPickSpec tti g m cands).1 ++ (greedyPickSpec tti g m cands).2.1)
        cands := by
  intro cands
  induction cands with
  | nil => intro m; exact List.Perm.refl []
  | cons c rest ih =>
    intro m
    simp only [greedyPickSpec]
    by_cases hav : isExeResAvailable (ensureRes m (tti.resOf (g.nodes.getD c default)))
        (tti.resOf (g.nodes.getD c default))
    · simp only [if_pos hav, List.cons_append]
      exact List.Perm.cons c (ih _)
    · simp only [if_neg hav]
      exact List.Perm.trans List.perm_middle (List.Perm.cons c (ih _))

lemma isAvail_iff (m : ResMap) (r : ExeRes) (l : List RUser)
    (hl : lookupRes m r = some l) :
    isExeResAvailable m r = true ↔ l.length < r.numUnits := by
  unfold isExeResAvailable
  rw [hl]
  simp

lemma CapOK_nil : CapOK [] := by
  intro e he
  exact absurd he (List.not_mem_nil e)

lemma CapOK_setRes (m : ResMap) (r : ExeRes) (l : List RUser)
    (hm : CapOK m) (hlen : l.length ≤ r.numUnits) : CapOK (setRes m r l) := by
  intro e he
  obtain ⟨e0, he0, heq⟩ := List.mem_map.mp he
  by_cases h : e0.1 = r
  · rw [if_pos h] at heq
    rw [← heq]
    simpa [h] using hlen
  · rw [if_neg h] at heq
    rw [← heq]
    exact hm e0 he0

lemma CapOK_ensureRes (m : ResMap) (r : ExeRes) (hm : CapOK m) :
    CapOK (ensureRes m r) := by
  unfold ensureRes
  cases hl : lookupRes m r with
  | some l => exact hm
  | none =>
    intro e he
    rcases List.mem_append.mp he with h | h
    · exact hm e h
    · have : e = (r, []) := List.mem_singleton.mp h
      rw [this]
      exact Nat.zero_le _

lemma CapOK_addExeResUser (tti : TTI) (g : Graph) (m : ResMap) (r : ExeRes) (u : Nat)
    (hm : CapOK m) (hav : isExeResAvailable m r = true) :
    CapOK (addExeResUser tti g m r u) := by
  unfold addExeResUser
  cases hl : lookupRes m r with
  | none =>
    exfalso
    unfold isExeResAvailable at hav
    rw [hl] at hav
    exact Bool.false_ne_true hav
  | some l =>
    have hlt : l.length < r.numUnits := (isAvail_iff m r l hl).mp hav
    apply CapOK_setRes m r _ hm
    simpa using hlt

lemma CapOK_greedyScan (tti : TTI) (g : Graph) :
    ∀ (cands : List Nat) (m : ResMap) (i : Nat),
      CapOK m → CapOK (greedyScan tti g m i cands).2.2 := by
  intro cands
  induction cands with
  | nil => intro m i hm; exact hm
  | cons c rest ih =>
    intro m i hm
    simp only [greedyScan]
    have hm1 : CapOK (ensureRes m (tti.resOf (g.nodes.getD c default))) :=
      CapOK_ensureRes m _ hm
    by_cases hav : isExeResAvailable (ensureRes m (tti.resOf (g.nodes.getD c default)))
        (tti.resOf (g.nodes.getD c default))
    · rw [if_pos hav]
      exact ih _ _ (CapOK_addExeResUser tti g _ _ c hm1 hav)
    · rw [if_neg hav]
      exact ih _ _ hm1

lemma eraseFirstLoop_len : ∀ (k : Nat) (l : List RUser),
    (eraseFirstLoop l k).length ≤ l.length := by
  intro k
  induction k with
  | zero => intro l; exact Nat.le_refl _
  | succ k ih =>
    intro l
    calc (eraseFirstLoop (l.eraseIdx k) k).length
        ≤ (l.eraseIdx k).length := ih _
      _ ≤ l.length := (List.eraseIdx_sublist l k).length_le

lemma CapOK_updateResList (m : ResMap) (hm : CapOK m) : CapOK (updateResList m).1 := by
  simp only [updateResList]
  intro e he
  obtain ⟨e0, he0, heq⟩ := List.mem_map.mp he
  rw [← heq]
  calc (eraseFirstLoop (e0.2.map _) (zeroIdxs (e0.2.map _)).length).length
      ≤ (e0.2.map _).length := eraseFirstLoop_len _ _
    _ = e0.2.length := List.length_map _ _
    _ ≤ e0.1.numUnits := hm e0 he0

lemma CapOK_schedStep (tti : TTI) (g : Graph) (st st' : SState)
    (hm : CapOK st.res) (hstep : schedStep tti g st = some st') : CapOK st'.res := by
  simp only [schedStep] at hstep
  split at hstep
  · exact absurd hstep (by simp)
  · have h := Option.some.inj hstep
    rw [← h]
    exact CapOK_greedyScan tti g st.wl st.res 0 hm

lemma CapOK_runLoop (tti : TTI) (g : Graph) :
    ∀ (fuel : Nat) (st st' : SState),
      CapOK st.res → runLoop tti g fuel st = .done st' → CapOK st'.res := by
  intro fuel
  induction fuel with
  | zero =>
    intro st st' hm hr
    unfold runLoop at hr
    split at hr
    · rw [← LoopOut.done.inj hr]
      exact hm
    · exact absurd hr (by simp)
  | succ f ih =>
    intro st st' hm hr
    unfold runLoop at hr
    split at hr
    · rw [← LoopOut.done.inj hr]
      exact hm
    · cases hs : schedStep tti g st with
      | none => rw [hs] at hr; exact absurd hr (by simp)
      | some st2 =>
        rw [hs] at hr
        exact ih st2 st' (CapOK_schedStep tti g st st2 hm hs) hr

/-! ### C9 helper lemmas: degree-map access and decrement counting -/

lemma getD_set_self (l : DegreeMap) (i : Nat) (x : Option Nat) (h : i < l.length) :
    (l.set i x).getD i none = x := by
  rw [List.getD_eq_getElem?_getD, List.getElem?_set_self]
  · rfl
  · simpa using h

lemma getD_set_ne (l : DegreeMap) (i j : Nat) (x : Option Nat) (h : i ≠ j) :
    (l.set i x).getD j none = l.getD j none := by
  rw [List.getD_eq_getElem?_getD, List.getElem?_set_ne h, ← List.getD_eq_getElem?_getD]

lemma decU32_pred (d : Nat) (h1 : 1 ≤ d) (h2 : d < 2 ^ 32) : decU32 d = d - 1 := by
  unfold decU32
  omega

lemma decCnt_nil (g : Graph) (u : Nat) : decCnt g [] u = 0 := by
  unfold decCnt
  split
  · rfl
  · have h : ∀ v ∈ (g.nodes.getD u default).inputs,
        (fun v =>
          match producerOf g v with
          | some p => decide (p ∈ ([] : List Nat))
          | none => false) v = (fun _ => false) v := by
      intro v _
      cases hp : producerOf g v <;> simp [hp]
    rw [List.filter_congr h, List.filter_false]
    rfl

lemma countP_prod_le (ins : List Nat) (f : Nat → Option Nat) (A : List Nat) :
    ins.countP (fun v => match f v with | some p => decide (p ∈ A) | none => false)
      ≤ ins.length - ins.countP (fun v => decide (f v = none)) := by
  induction ins with
  | nil => simp
  | cons v t ih =>
    have hle := List.countP_le_length (fun v => decide (f v = none)) (l := t)
    simp only [List.countP_cons, List.length_cons]
    cases hf : f v with
    | none =>
      simp only [hf]
      simp
      omega
    | some p =>
      by_cases hp : p ∈ A
      · simp only [hf, hp]
        simp
        omega
      · simp only [hf, hp]
        simp
        omega

lemma countP_prod_append (ins : List Nat) (f : Nat → Option Nat) (A : List Nat)
    (n : Nat) (hn : n ∉ A) :
    ins.countP (fun v => match f v with | some p => decide (p ∈ A ++ [n]) | none => false)
      = ins.countP (fun v => match f v with | some p => decide (p ∈ A) | none => false)
        + ins.countP (fun v => match f v with | some p => decide (p ∈ [n]) | none => false) := by
  induction ins with
  | nil => simp
  | cons v t ih =>
    simp only [List.countP_cons]
    rw [ih]
    cases hf : f v with
    | none =>
      simp [hf]
    | some p =>
      by_cases hp : p ∈ A
      · have hpn : p ≠ n := fun h => hn (h ▸ hp)
        have hm : p ∈ A ++ [n] := List.mem_append.mpr (Or.inl hp)
        simp [hf, hm, hp, hpn]
        try omega
      · by_cases hpn : p = n
        · subst hpn
          have hm : p ∈ A ++ [p] := List.mem_append.mpr (Or.inr (by simp))
          simp [hf, hm, hp]
          try omega
        · have hm : p ∉ A ++ [n] := by
            intro hc
            rcases List.mem_append.mp hc with h | h
            · exact hp h
            · exact hpn (List.mem_singleton.mp h)
          simp [hf, hm, hp, hpn]
          try omega

lemma decCnt_le_d0 (g : Graph) (A : List Nat) (u : Nat) : decCnt g A u ≤ d0 g u := by
  unfold decCnt d0 danglingCount
  split
  · exact Nat.zero_le _
  · rw [← List.countP_eq_length_filter, ← List.countP_eq_length_filter]
    exact countP_prod_le _ _ _

lemma decCnt_append_single (g : Graph) (A : List Nat) (n u : Nat) (hn : n ∉ A) :
    decCnt g (A ++ [n]) u = decCnt g A u + decCnt g [n] u := by
  unfold decCnt
  split
  · rfl
  · rw [← List.countP_eq_length_filter, ← List.countP_eq_length_filter,
      ← List.countP_eq_length_filter]
    exact countP_prod_append _ _ A n hn

lemma count_map_const (l : List Nat) (i u : Nat) :
    ((l.map (fun _ => i)).count u) = if u = i then l.length else 0 := by
  induction l with
  | nil => simp
  | cons x t ih =>
    by_cases h : u = i
    · subst h
      simp only [List.map_cons, List.count_cons_self, ih]
      simp
    · simp only [List.map_cons, List.count_cons_of_ne h, ih]
      simp [h]

lemma count_flatMap_users (g : Graph) (v u : Nat) :
    ∀ L : List Nat, L.Nodup →
      ((L.flatMap (fun i =>
          (((g.nodes.getD i default).inputs.filter (fun w => decide (w = v))).map
            (fun _ => i)))).count u)
        = if u ∈ L then
            ((g.nodes.getD u default).inputs.filter (fun w => decide (w = v))).length
          else 0 := by
  intro L
  induction L with
  | nil => intro _; simp
  | cons j t ih =>
    intro hnd
    have hj : j ∉ t := (List.nodup_cons.mp hnd).1
    have ht : t.Nodup := (List.nodup_cons.mp hnd).2
    simp only [List.flatMap_cons, List.count_append, ih ht, count_map_const]
    by_cases h : u = j
    · subst h
      simp [hj]
    · simp [h, List.mem_cons]

lemma count_usersOf (g : Graph) (v u : Nat) (hu : u < g.nodes.length) :
    (usersOf g v).count u
      = ((g.nodes.getD u default).inputs.filter (fun w => decide (w = v))).length := by
  have h := count_flatMap_users g v u (List.range g.nodes.length) (List.nodup_range _)
  unfold usersOf
  rw [h]
  simp [List.mem_range, hu]

lemma filter_mem_cons_split (ins : List Nat) (v : Nat) (outs : List Nat) (hv : v ∉ outs) :
    (ins.filter (fun w => decide (w ∈ v :: outs))).length
      = (ins.filter (fun w => decide (w = v))).length
        + (ins.filter (fun w => decide (w ∈ outs))).length := by
  rw [← List.countP_eq_length_filter, ← List.countP_eq_length_filter,
    ← List.countP_eq_length_filter]
  induction ins with
  | nil => simp
  | cons w t ih =>
    simp only [List.countP_cons]
    rw [ih]
    by_cases hw : w = v
    · subst hw
      have h0 : w ∉ outs := hv
      simp [h0]
      omega
    · by_cases hwo : w ∈ outs
      · have h0 : w ∈ v :: outs := List.mem_cons_of_mem v hwo
        simp [h0, hwo, hw]
        omega
      · have h0 : w ∉ v :: outs := by
          intro hc
          rcases List.mem_cons.mp hc with h | h
          · exact hw h
          · exact hwo h
        simp [h0, hwo, hw]

lemma count_flatMap_usersOf (g : Graph) (u : Nat) (hu : u < g.nodes.length) :
    ∀ S : List Nat, S.Nodup →
      ((S.flatMap (usersOf g)).count u)
        = ((g.nodes.getD u default).inputs.filter (fun w => decide (w ∈ S))).length := by
  intro S
  induction S with
  | nil =>
    intro _
    simp only [List.flatMap_nil, List.count_nil]
    have h : ∀ w ∈ (g.nodes.getD u default).inputs,
        (fun w => decide (w ∈ ([] : List Nat))) w = (fun _ => false) w := by
      intro w _
      simp
    rw [List.filter_congr h, List.filter_false]
    rfl
  | cons v S' ih =>
    intro hnd
    have hv : v ∉ S' := (List.nodup_cons.mp hnd).1
    have hS : S'.Nodup := (List.nodup_cons.mp hnd).2
    simp only [List.flatMap_cons, List.count_append, ih hS, count_usersOf g v u hu]
    rw [filter_mem_cons_split _ v S' hv]

lemma producerOf_inv (g : Graph) (w p : Nat) (h : producerOf g w = some p) :
    p < g.nodes.length ∧ w ∈ (g.nodes.getD p default).outputs := by
  unfold producerOf at h
  refine ⟨List.mem_range.mp (List.mem_of_find?_eq_some h), ?_⟩
  have := List.find?_some h
  simpa using this

lemma count_streamOf (g : Graph) (hWF : WFGraph g) (n u : Nat)
    (hn : n < g.nodes.length) (hu : u < g.nodes.length) :
    (streamOf g n).count u
      = ((g.nodes.getD u default).inputs.filter
          (fun w => decide (producerOf g w = some n))).length := by
  unfold streamOf
  rw [count_flatMap_usersOf g u hu _ (hWF.outsNodup n hn)]
  have h : ∀ w ∈ (g.nodes.getD u default).inputs,
      decide (w ∈ (g.nodes.getD n default).outputs)
        = decide (producerOf g w = some n) := by
    intro w _
    by_cases hw : w ∈ (g.nodes.getD n default).outputs
    · have hp := hWF.producerMatch n hn w hw
      rw [decide_eq_true hw, decide_eq_true hp]
    · have hp : producerOf g w ≠ some n := by
        intro hc
        exact hw (producerOf_inv g w n hc).2
      rw [decide_eq_false hw, decide_eq_false hp]
  rw [List.filter_congr h]

lemma cntS_streamOf (g : Graph) (hWF : WFGraph g) (n u : Nat)
    (hn : n < g.nodes.length) (hu : u < g.nodes.length) :
    cntS g (streamOf g n) u = decCnt g [n] u := by
  unfold cntS decCnt
  split
  · rfl
  · rw [count_streamOf g hWF n u hn hu]
    have h : ∀ w ∈ (g.nodes.getD u default).inputs,
        decide (producerOf g w = some n)
          = (fun v =>
              match producerOf g v with
              | some p => decide (p ∈ [n])
              | none => false) w := by
      intro w _
      cases hp : producerOf g w with
      | none => simp [hp]
      | some p =>
        by_cases hpn : p = n
        · subst hpn
          simp [hp]
        · simp [hp, hpn]
    rw [List.filter_congr h]

lemma cntS_cons_self (g : Graph) (s : List Nat) (u : Nat)
    (h : (g.nodes.getD u default).kind ≠ Kind.ret) :
    cntS g (u :: s) u = cntS g s u + 1 := by
  unfold cntS
  rw [if_neg h, if_neg h, List.count_cons_self]

lemma cntS_cons_ne (g : Graph) (u0 : Nat) (s : List Nat) (u : Nat) (h : u ≠ u0) :
    cntS g (u0 :: s) u = cntS g s u := by
  unfold cntS
  split
  · rfl
  · rw [List.count_cons_of_ne h]

lemma cntS_cons_ret (g : Graph) (u0 : Nat) (s : List Nat) (u : Nat)
    (h : (g.nodes.getD u0 default).kind = Kind.ret) :
    cntS g (u0 :: s) u = cntS g s u := by
  by_cases hu : u = u0
  · subst hu
    unfold cntS
    rw [if_pos h, if_pos h]
  · exact cntS_cons_ne g u0 s u hu

lemma getD_some_lt (l : DegreeMap) (u d : Nat) (h : l.getD u none = some d) :
    u < l.length := by
  by_contra hc
  rw [List.getD_eq_default] at h
  · exact Option.noConfusion h
  · omega

/-- Effect of propagating one flattened user stream `s`: every degree
entry drops by that node's occurrence count in `s`, exactly the nodes
whose count reaches zero (from nonzero) are appended — once each — to
both the worklist and the push log, and no lookup faults. -/
lemma propUsersI_spec (g : Graph) :
    ∀ (s : List Nat) (D : DegreeMap) (W P : List Nat),
      (∀ u, u < g.nodes.length →
        (D.getD u none = none ↔ (g.nodes.getD u default).kind = Kind.undefined)) →
      (∀ u ∈ s, u < g.nodes.length ∧ (g.nodes.getD u default).kind ≠ Kind.undefined) →
      (∀ u d, D.getD u none = some d → cntS g s u ≤ d ∧ d < 2 ^ 32) →
      D.length = g.nodes.length →
      ∃ D' newP,
        propUsersI g (D, W, P) s = some (D', W ++ newP, P ++ newP)
        ∧ D'.length = D.length
        ∧ (∀ u d, D.getD u none = some d → D'.getD u none = some (d - cntS g s u))
        ∧ (∀ u, D.getD u none = none → D'.getD u none = none)
        ∧ newP.Nodup
        ∧ (∀ u, u ∈ newP ↔ ∃ d, D.getD u none = some d ∧ d ≠ 0 ∧ d = cntS g s u) := by
  intro s
  induction s with
  | nil =>
    intro D W P hdom hmem hge hlen
    refine ⟨D, [], by simp [propUsersI], rfl, ?_, fun u h => h, List.nodup_nil, ?_⟩
    · intro u d hd
      have h0 : cntS g ([] : List Nat) u = 0 := by
        unfold cntS
        split <;> simp
      rw [h0, Nat.sub_zero]
      exact hd
    · intro u
      simp only [List.not_mem_nil, false_iff]
      rintro ⟨d, hd, hne, hcnt⟩
      rw [hcnt] at hne
      exact hne (by simp [cntS])
  | cons u0 s' ih =>
    intro D W P hdom hmem hge hlen
    by_cases hret : (g.nodes.getD u0 default).kind = Kind.ret
    · have hstep : propUsersI g (D, W, P) (u0 :: s') = propUsersI g (D, W, P) s' := by
        simp only [propUsersI]
        rw [if_pos hret]
      obtain ⟨D', newP, heq, hl, hval, hnone, hnd, hmemP⟩ :=
        ih D W P hdom (fun u hu => hmem u (List.mem_cons_of_mem u0 hu))
          (fun u d hd => by
            have := hge u d hd
            rwa [cntS_cons_ret g u0 s' u hret] at this) hlen
      refine ⟨D', newP, by rw [hstep]; exact heq, hl, ?_, hnone, hnd, ?_⟩
      · intro u d hd
        rw [cntS_cons_ret g u0 s' u hret]
        exact hval u d hd
      · intro u
        rw [hmemP u]
        constructor
        · rintro ⟨d, hd, hne, hcnt⟩
          exact ⟨d, hd, hne, by rwa [cntS_cons_ret g u0 s' u hret]⟩
        · rintro ⟨d, hd, hne, hcnt⟩
          exact ⟨d, hd, hne, by rwa [cntS_cons_ret g u0 s' u hret] at hcnt⟩
    · have hu0 := hmem u0 (List.mem_cons_self u0 s')
      have hnn : ¬ D.getD u0 none = none := by
        intro hc
        exact hu0.2 ((hdom u0 hu0.1).mp hc)
      obtain ⟨d, hd⟩ : ∃ d, D.getD u0 none = some d := by
        cases hD : D.getD u0 none with
        | none => exact absurd hD hnn
        | some d => exact ⟨d, rfl⟩
      have hcnt0 := hge u0 d hd
      have hcnt0' : cntS g s' u0 + 1 ≤ d := by
        rw [← cntS_cons_self g s' u0 hret]
        exact hcnt0.1
      have hd1 : 1 ≤ d := by omega
      have hdec : decU32 d = d - 1 := decU32_pred d hd1 hcnt0.2
      have hu0lt : u0 < D.length := getD_some_lt D u0 d hd
      set D2 := D.set u0 (some (d - 1)) with hD2
      have hD2len : D2.length = g.nodes.length := by
        rw [hD2, List.length_set]
        exact hlen
      have hD2self : D2.getD u0 none = some (d - 1) :=
        getD_set_self D u0 (some (d - 1)) hu0lt
      have hD2ne : ∀ u, u ≠ u0 → D2.getD u none = D.getD u none := by
        intro u hu
        exact getD_set_ne D u0 u (some (d - 1)) (fun h => hu h.symm)
      have hdom2 : ∀ u, u < g.nodes.length →
          (D2.getD u none = none ↔ (g.nodes.getD u default).kind = Kind.undefined) := by
        intro u hu
        by_cases huu : u = u0
        · subst huu
          rw [hD2self]
          constructor
          · intro h
            exact Option.noConfusion h
          · intro h
            exact absurd h hu0.2
        · rw [hD2ne u huu]
          exact hdom u hu
      have hge2 : ∀ u d2, D2.getD u none = some d2 → cntS g s' u ≤ d2 ∧ d2 < 2 ^ 32 := by
        intro u d2 hd2
        by_cases huu : u = u0
        · subst huu
          rw [hD2self] at hd2
          have h3 : d - 1 = d2 := Option.some.inj hd2
          constructor
          · omega
          · omega
        · rw [hD2ne u huu] at hd2
          have := hge u d2 hd2
          rwa [cntS_cons_ne g u0 s' u huu] at this
      have hmem2 : ∀ u ∈ s', u < g.nodes.length
          ∧ (g.nodes.getD u default).kind ≠ Kind.undefined :=
        fun u hu => hmem u (List.mem_cons_of_mem u0 hu)
      by_cases hz : d - 1 = 0
      · -- the decrement reaches zero: u0 is pushed
        obtain ⟨D', newP', heq, hl, hval, hnone, hnd, hmemP⟩ :=
          ih D2 (W ++ [u0]) (P ++ [u0]) hdom2 hmem2 hge2 hD2len
        have hdu : decUserI D W P u0 = some (D2, W ++ [u0], P ++ [u0]) := by
          unfold decUserI
          rw [hd]
          dsimp only
          rw [hdec, if_pos hz, if_pos hz, ← hD2]
        have hstep : propUsersI g (D, W, P) (u0 :: s')
            = propUsersI g (D2, W ++ [u0], P ++ [u0]) s' := by
          simp only [propUsersI]
          rw [if_neg hret, hdu]
        have hu0napp : u0 ∉ newP' := by
          intro hc
          obtain ⟨d2, hd2, hne2, _⟩ := (hmemP u0).mp hc
          rw [hD2self] at hd2
          have h3 : d - 1 = d2 := Option.some.inj hd2
          omega
        refine ⟨D', u0 :: newP', ?_, by rw [hl, hD2, List.length_set], ?_, ?_, ?_, ?_⟩
        · rw [hstep, heq]
          simp
        · intro u du hdd
          by_cases huu : u = u0
          · subst huu
            rw [hd] at hdd
            have h4 : d = du := Option.some.inj hdd
            subst h4
            have h2 := hval u (d - 1) hD2self
            rw [cntS_cons_self g s' u hret]
            rw [h2]
            have hc2 : cntS g s' u ≤ d - 1 := by omega
            exact congrArg some (by omega)
          · have h2 := hval u du (by rw [hD2ne u huu]; exact hdd)
            rwa [cntS_cons_ne g u0 s' u huu]
        · intro u hu
          have huu : u ≠ u0 := by
            intro hc
            subst hc
            rw [hd] at hu
            exact Option.noConfusion hu
          exact hnone u (by rw [hD2ne u huu]; exact hu)
        · exact List.nodup_cons.mpr ⟨hu0napp, hnd⟩
        · intro u
          by_cases huu : u = u0
          · subst huu
            simp only [List.mem_cons, true_or, true_iff]
            refine ⟨d, hd, by omega, ?_⟩
            rw [cntS_cons_self g s' u hret]
            omega
          · simp only [List.mem_cons]
            constructor
            · rintro (h | h)
              · exact absurd h huu
              · obtain ⟨d2, hd2, hne2, hc2⟩ := (hmemP u).mp h
                rw [hD2ne u huu] at hd2
                exact ⟨d2, hd2, hne2, by rwa [cntS_cons_ne g u0 s' u huu]⟩
            · rintro ⟨d2, hd2, hne2, hc2⟩
              right
              refine (hmemP u).mpr ⟨d2, by rw [hD2ne u huu]; exact hd2, hne2, ?_⟩
              rwa [cntS_cons_ne g u0 s' u huu] at hc2
      · -- count still positive: no push
        obtain ⟨D', newP', heq, hl, hval, hnone, hnd, hmemP⟩ :=
          ih D2 W P hdom2 hmem2 hge2 hD2len
        have hdu : decUserI D W P u0 = some (D2, W, P) := by
          unfold decUserI
          rw [hd]
          dsimp only
          rw [hdec, if_neg hz, if_neg hz, ← hD2]
        have hstep : propUsersI g (D, W, P) (u0 :: s')
            = propUsersI g (D2, W, P) s' := by
          simp only [propUsersI]
          rw [if_neg hret, hdu]
        refine ⟨D', newP', ?_, by rw [hl, hD2, List.length_set], ?_, ?_, hnd, ?_⟩
        · rw [hstep, heq]
        · intro u du hdd
          by_cases huu : u = u0
          · subst huu
            rw [hd] at hdd
            have h4 : d = du := Option.some.inj hdd
            subst h4
            have h2 := hval u (d - 1) hD2self
            rw [cntS_cons_self g s' u hret, h2]
            have hc2 : cntS g s' u ≤ d - 1 := (hge2 u (d - 1) hD2self).1
            exact congrArg some (by omega)
          · have h2 := hval u du (by rw [hD2ne u huu]; exact hdd)
            rwa [cntS_cons_ne g u0 s' u huu]
        · intro u hu
          have huu : u ≠ u0 := by
            intro hc
            subst hc
            rw [hd] at hu
            exact Option.noConfusion hu
          exact hnone u (by rw [hD2ne u huu]; exact hu)
        · intro u
          by_cases huu : u = u0
          · subst huu
            rw [hmemP u]
            constructor
            · rintro ⟨d2, hd2, hne2, hc2⟩
              rw [hD2self] at hd2
              have h4 : d - 1 = d2 := Option.some.inj hd2
              subst h4
              refine ⟨d, hd, by omega, ?_⟩
              rw [cntS_cons_self g s' u hret]
              omega
            · rintro ⟨d2, hd2, hne2, hc2⟩
              rw [hd] at hd2
              have h4 : d = d2 := Option.some.inj hd2
              subst h4
              rw [cntS_cons_self g s' u hret] at hc2
              refine ⟨d - 1, hD2self, hz, by omega⟩
          · rw [hmemP u]
            constructor
            · rintro ⟨d2, hd2, hne2, hc2⟩
              rw [hD2ne u huu] at hd2
              exact ⟨d2, hd2, hne2, by rwa [cntS_cons_ne g u0 s' u huu]⟩
            · rintro ⟨d2, hd2, hne2, hc2⟩
              refine ⟨d2, by rw [hD2ne u huu]; exact hd2, hne2, ?_⟩
              rwa [cntS_cons_ne g u0 s' u huu] at hc2

lemma mem_usersOf (g : Graph) (v u : Nat) (h : u ∈ usersOf g v) :
    u < g.nodes.length ∧ v ∈ (g.nodes.getD u default).inputs := by
  unfold usersOf at h
  obtain ⟨i, hi, hu⟩ := List.mem_flatMap.mp h
  obtain ⟨a, ha, hau⟩ := List.mem_map.mp hu
  subst hau
  obtain ⟨hain, hav⟩ := List.mem_filter.mp ha
  have : a = v := by simpa using hav
  subst this
  exact ⟨List.mem_range.mp hi, hain⟩

lemma propUsersI_append (g : Graph) :
    ∀ (l1 l2 : List Nat) (st : DegreeMap × List Nat × List Nat),
      propUsersI g st (l1 ++ l2)
        = match propUsersI g st l1 with
          | none => none
          | some st' => propUsersI g st' l2 := by
  intro l1
  induction l1 with
  | nil => intro l2 st; rfl
  | cons u t ih =>
    intro l2 st
    simp only [List.cons_append, propUsersI]
    by_cases hret : (g.nodes.getD u default).kind = Kind.ret
    · rw [if_pos hret, if_pos hret]
      exact ih l2 st
    · rw [if_neg hret, if_neg hret]
      cases decUserI st.1 st.2.1 st.2.2 u with
      | none => rfl
      | some st2 => exact ih l2 st2

lemma propOutputsI_eq_stream (g : Graph) :
    ∀ (outs : List Nat) (st : DegreeMap × List Nat × List Nat),
      propOutputsI g st outs = propUsersI g st (outs.flatMap (usersOf g)) := by
  intro outs
  induction outs with
  | nil => intro st; rfl
  | cons v rest ih =>
    intro st
    simp only [List.flatMap_cons, propOutputsI, propUsersI_append]
    cases propUsersI g st (usersOf g v) with
    | none => rfl
    | some st2 => exact ih st2

/-- Accounting for one pending admitted node: its propagation succeeds
and shifts the invariant's accounted set from `A` to `A ++ [n]`. -/
lemma propNode_inv (g : Graph) (hWF : WFGraph g) (n : Nat) (rest : List Nat)
    (D : DegreeMap) (W P A : List Nat)
    (hInv : MidInv g D W P A (n :: rest)) :
    ∃ D' newP,
      propOutputsI g (D, W, P) (g.nodes.getD n default).outputs
        = some (D', W ++ newP, P ++ newP)
      ∧ MidInv g D' (W ++ newP) (P ++ newP) (A ++ [n]) rest := by
  obtain ⟨hlen, hdom, hval, hperm, hnd, hPdom, hPzero⟩ := hInv
  have hnP : n ∈ P := by
    rw [List.Perm.mem_iff hperm]
    simp
  have hn := hPdom n hnP
  have hcount := (List.nodup_iff_count_le_one.mp hnd) n
  rw [List.count_append, List.count_append, List.count_cons_self] at hcount
  have hnA : n ∉ A := by
    rw [← List.count_eq_zero]
    omega
  have hnW : n ∉ W := by
    rw [← List.count_eq_zero]
    omega
  have hnRest : n ∉ rest := by
    rw [← List.count_eq_zero]
    omega
  have hstream : ∀ u ∈ streamOf g n,
      u < g.nodes.length ∧ (g.nodes.getD u default).kind ≠ Kind.undefined := by
    intro u hu
    obtain ⟨v, hv, huv⟩ := List.mem_flatMap.mp hu
    obtain ⟨hult, hvin⟩ := mem_usersOf g v u huv
    refine ⟨hult, ?_⟩
    intro hund
    have h1 := hWF.undefNoProduced u hult hund v hvin
    have h2 := hWF.producerMatch n hn.1 v hv
    rw [h1] at h2
    exact Option.noConfusion h2
  have hge : ∀ u d, D.getD u none = some d →
      cntS g (streamOf g n) u ≤ d ∧ d < 2 ^ 32 := by
    intro u d hd
    have hult : u < g.nodes.length := by
      have := getD_some_lt D u d hd
      omega
    have hknd : (g.nodes.getD u default).kind ≠ Kind.undefined := by
      intro hc
      rw [(hdom u hult).mpr hc] at hd
      exact Option.noConfusion hd
    have hv := hval u hult hknd
    rw [hv] at hd
    have hdd : d = d0 g u - decCnt g A u := (Option.some.inj hd).symm
    have hsplit := decCnt_append_single g A n u hnA
    have hbound := decCnt_le_d0 g (A ++ [n]) u
    have hb0 := decCnt_le_d0 g A u
    have hstreamcnt := cntS_streamOf g hWF n u hn.1 hult
    have hsmall : d0 g u < 2 ^ 32 := by
      have := hWF.smallDeg u hult
      unfold d0
      omega
    constructor
    · rw [hstreamcnt]
      omega
    · omega
  obtain ⟨D', newP, heq, hl, hval', hnone', hndP, hmemP⟩ :=
    propUsersI_spec g (streamOf g n) D W P hdom hstream hge hlen
  refine ⟨D', newP, ?_, ?_⟩
  · rw [propOutputsI_eq_stream]
    exact heq
  · have hnewPdom : ∀ u ∈ newP,
        u < g.nodes.length ∧ (g.nodes.getD u default).kind ≠ Kind.undefined := by
      intro u hu
      obtain ⟨d, hd, _, _⟩ := (hmemP u).mp hu
      have hult : u < g.nodes.length := by
        have := getD_some_lt D u d hd
        omega
      refine ⟨hult, ?_⟩
      intro hc
      rw [(hdom u hult).mpr hc] at hd
      exact Option.noConfusion hd
    have hnewPnotold : ∀ u ∈ newP, u ∉ P := by
      intro u hu hc
      obtain ⟨d, hd, hdne, _⟩ := (hmemP u).mp hu
      have hf := hnewPdom u hu
      have := (hPzero u hf.1 hf.2).mp hc
      rw [hd] at this
      exact hdne (Option.some.inj this)
    refine ⟨hl.trans hlen, ?_, ?_, ?_, ?_, ?_, ?_⟩
    · intro u hu
      constructor
      · intro hc
        by_contra hk
        have hv := hval u hu hk
        have := hval' u _ hv
        rw [this] at hc
        exact Option.noConfusion hc
      · intro hc
        have := hnone' u ((hdom u hu).mpr hc)
        exact this
    · intro u hu hk
      have hv := hval u hu hk
      have h2 := hval' u _ hv
      rw [h2]
      have hsplit := decCnt_append_single g A n u hnA
      have hbound := decCnt_le_d0 g (A ++ [n]) u
      have hstreamcnt := cntS_streamOf g hWF n u hn.1 hu
      rw [hstreamcnt]
      exact congrArg some (by omega)
    · rw [List.perm_iff_count]
      intro a
      have hc := hperm.count_eq a
      rw [List.count_append, List.count_append] at hc
      rw [List.count_append, List.count_append, List.count_append,
        List.count_append, List.count_append]
      by_cases han : a = n
      · subst han
        rw [List.count_cons_self] at hc
        have hc1 : List.count a [a] = 1 := by simp
        omega
      · rw [List.count_cons_of_ne han] at hc
        have hc1 : List.count a [n] = 0 := List.count_eq_zero.mpr (by simp [han])
        omega
    · rw [List.nodup_iff_count_le_one]
      intro a
      have hold := (List.nodup_iff_count_le_one.mp hnd) a
      have hN : List.count a newP ≤ 1 := List.nodup_iff_count_le_one.mp hndP a
      have hperm2 := hperm.count_eq a
      rw [List.count_append, List.count_append] at hold
      rw [List.count_append, List.count_append] at hperm2
      rw [List.count_append, List.count_append, List.count_append,
        List.count_append]
      by_cases han : a = n
      · subst han
        have hc1 : List.count a [a] = 1 := by simp
        rw [List.count_cons_self] at hold hperm2
        by_cases hmem0 : a ∈ newP
        · have h1 : List.count a P = 0 :=
            List.count_eq_zero.mpr (hnewPnotold a hmem0)
          omega
        · have h1 : List.count a newP = 0 := List.count_eq_zero.mpr hmem0
          omega
      · have hc1 : List.count a [n] = 0 := List.count_eq_zero.mpr (by simp [han])
        rw [List.count_cons_of_ne han] at hold hperm2
        by_cases hmem0 : a ∈ newP
        · have h1 : List.count a P = 0 :=
            List.count_eq_zero.mpr (hnewPnotold a hmem0)
          omega
        · have h1 : List.count a newP = 0 := List.count_eq_zero.mpr hmem0
          omega
    · intro u hu
      rcases List.mem_append.mp hu with h | h
      · exact hPdom u h
      · exact hnewPdom u h
    · intro u hu hk
      have hv := hval u hu hk
      have h2 := hval' u _ hv
      constructor
      · intro hc
        rw [h2]
        rcases List.mem_append.mp hc with h | h
        · have := (hPzero u hu hk).mp h
          rw [hv] at this
          have h0 : d0 g u - decCnt g A u = 0 := Option.some.inj this
          have hcle := (hge u _ hv).1
          exact congrArg some (by omega)
        · obtain ⟨d, hd, hdne, hdc⟩ := (hmemP u).mp h
          rw [hv] at hd
          have : d0 g u - decCnt g A u = d := (Option.some.inj hd)
          exact congrArg some (by omega)
      · intro hc
        rw [h2] at hc
        have hz : d0 g u - decCnt g A u - cntS g (streamOf g n) u = 0 :=
          Option.some.inj hc
        by_cases h0 : d0 g u - decCnt g A u = 0
        · apply List.mem_append.mpr
          left
          apply (hPzero u hu hk).mpr
          rw [hv, h0]
        · apply List.mem_append.mpr
          right
          apply (hmemP u).mpr
          have hcle := (hge u _ hv).1
          exact ⟨d0 g u - decCnt g A u, hv, h0, by omega⟩

/-- Propagating every pending admitted node succeeds and lands back in
the loop-level invariant with the pending nodes accounted. -/
lemma propPickedI_inv (g : Graph) (hWF : WFGraph g) :
    ∀ (pend : List Nat) (D : DegreeMap) (W P A : List Nat),
      MidInv g D W P A pend →
      ∃ D' newP,
        propPickedI g (D, W, P) pend = some (D', W ++ newP, P ++ newP)
        ∧ MidInv g D' (W ++ newP) (P ++ newP) (A ++ pend) [] := by
  intro pend
  induction pend with
  | nil =>
    intro D W P A hInv
    refine ⟨D, [], by simp [propPickedI], ?_⟩
    simpa using hInv
  | cons n rest ih =>
    intro D W P A hInv
    obtain ⟨D1, newP1, heq1, hInv1⟩ := propNode_inv g hWF n rest D W P A hInv
    obtain ⟨D', newP2, heq2, hInv2⟩ := ih D1 (W ++ newP1) (P ++ newP1) (A ++ [n]) hInv1
    refine ⟨D', newP1 ++ newP2, ?_, ?_⟩
    · simp only [propPickedI]
      rw [heq1]
      show propPickedI g (D1, W ++ newP1, P ++ newP1) rest = _
      rw [heq2]
      simp [List.append_assoc]
    · have h := hInv2
      simp only [List.append_assoc] at h
      simpa using h

/-- The greedy pass re-partitions the worklist into kept candidates and
pending admissions without breaking the invariant. -/
lemma greedy_midinv (tti : TTI) (g : Graph) (st : IState) (hInv : InvI g st) :
    MidInv g st.dmap (greedyPickNextNodes tti g st.res st.wl).2.1 st.pushed st.admLog
      (greedyPickNextNodes tti g st.res st.wl).1 := by
  obtain ⟨hlen, hdom, hval, hperm, hnd, hPdom, hPzero⟩ := hInv
  have hpe := greedyPick_eq_spec tti g st.wl st.res
  have hpm := greedyPickSpec_perm tti g st.wl st.res
  refine ⟨hlen, hdom, hval, ?_, ?_, hPdom, hPzero⟩
  · rw [List.perm_iff_count]
    intro a
    have h1 := hperm.count_eq a
    have h2 := hpm.count_eq a
    rw [hpe]
    rw [List.count_append, List.count_append, List.count_nil] at h1
    rw [List.count_append] at h2
    rw [List.count_append, List.count_append]
    omega
  · rw [List.nodup_iff_count_le_one]
    intro a
    have hold := List.nodup_iff_count_le_one.mp hnd a
    have h2 := hpm.count_eq a
    rw [hpe]
    rw [List.count_append, List.count_append, List.count_nil] at hold
    rw [List.count_append] at h2
    rw [List.count_append, List.count_append]
    omega

/-- One instrumented loop iteration from an invariant state succeeds
and preserves the invariant. -/
lemma schedStepI_inv (tti : TTI) (g : Graph) (hWF : WFGraph g) (st : IState)
    (hInv : InvI g st) :
    ∃ st', schedStepI tti g st = some st' ∧ InvI g st' := by
  have hmid := greedy_midinv tti g st hInv
  obtain ⟨D', newP, heq, hfin⟩ := propPickedI_inv g hWF
    (greedyPickNextNodes tti g st.res st.wl).1 st.dmap
    (greedyPickNextNodes tti g st.res st.wl).2.1 st.pushed st.admLog hmid
  refine ⟨⟨(greedyPickNextNodes tti g st.res st.wl).2.2,
    (greedyPickNextNodes tti g st.res st.wl).2.1 ++ newP, D',
    st.pushed ++ newP, st.admLog ++ (greedyPickNextNodes tti g st.res st.wl).1⟩, ?_, ?_⟩
  · simp only [schedStepI]
    rw [heq]
  · exact hfin

lemma mem_seedWorklist (g : Graph) (dmap : DegreeMap) (u : Nat) :
    u ∈ seedWorklist g dmap
      ↔ u < g.nodes.length ∧ (g.nodes.getD u default).kind ≠ Kind.undefined
        ∧ dmap.getD u none = some 0 := by
  unfold seedWorklist
  rw [List.mem_filter, List.mem_range]
  constructor
  · rintro ⟨h1, h2⟩
    have h3 := of_decide_eq_true h2
    exact ⟨h1, h3.1, h3.2⟩
  · rintro ⟨h1, h2, h3⟩
    exact ⟨h1, decide_eq_true ⟨h2, h3⟩⟩

/-- The seeded state satisfies the invariant. -/
lemma initI_inv (g : Graph) : InvI g (initIState g) := by
  unfold InvI initIState
  refine ⟨?_, ?_, ?_, ?_, ?_, ?_, ?_⟩
  · rw [buildDegreeMap_eq]
    simp
  · intro u hu
    rw [buildDegreeMap_eq]
    simp only
    rw [getD_map_degEntry g g.nodes u hu]
    unfold degEntry
    by_cases hk : (g.nodes.getD u default).kind = Kind.undefined
    · rw [if_pos hk]
      exact ⟨fun _ => hk, fun _ => rfl⟩
    · rw [if_neg hk]
      constructor
      · intro h
        exact Option.noConfusion h
      · intro h
        exact absurd h hk
  · intro u hu hk
    rw [buildDegreeMap_eq]
    simp only
    rw [getD_map_degEntry g g.nodes u hu]
    unfold degEntry
    rw [if_neg hk, decCnt_nil, Nat.sub_zero]
    rfl
  · simp
  · simp only [List.append_nil]
    apply List.Nodup.filter
    exact List.nodup_range _
  · intro u hu
    have h := (mem_seedWorklist g _ u).mp hu
    exact ⟨h.1, h.2.1⟩
  · intro u hu hk
    rw [mem_seedWorklist]
    constructor
    · rintro ⟨_, _, h3⟩
      exact h3
    · intro h
      exact ⟨hu, hk, h⟩

/-- Every reachable state of the instrumented loop exists (no fault)
and satisfies the invariant. -/
lemma iterSchedI_inv (tti : TTI) (g : Graph) (hWF : WFGraph g) :
    ∀ n, ∃ st, iterSchedI tti g n = some st ∧ InvI g st := by
  intro n
  induction n with
  | zero => exact ⟨initIState g, rfl, initI_inv g⟩
  | succ k ih =>
    obtain ⟨st, hst, hinv⟩ := ih
    obtain ⟨st', hstep, hinv'⟩ := schedStepI_inv tti g hWF st hinv
    refine ⟨st', ?_, hinv'⟩
    simp only [iterSchedI]
    rw [hst]
    exact hstep

/-! ### Projection of the instrumented machine onto the plain one -/

lemma decUserI_proj (D : DegreeMap) (W P : List Nat) (u : Nat) :
    (decUserI D W P u).map (fun t => (t.1, t.2.1)) = decUser D W u := by
  unfold decUserI decUser
  cases hD : D.getD u none
  · rfl
  · simp

lemma propUsersI_proj (g : Graph) :
    ∀ (s : List Nat) (D : DegreeMap) (W P : List Nat),
      (propUsersI g (D, W, P) s).map (fun t => (t.1, t.2.1))
        = propUsers g (D, W) s := by
  intro s
  induction s with
  | nil => intro D W P; rfl
  | cons u rest ih =>
    intro D W P
    simp only [propUsersI, propUsers]
    by_cases hret : (g.nodes.getD u default).kind = Kind.ret
    · rw [if_pos hret, if_pos hret]
      exact ih D W P
    · rw [if_neg hret, if_neg hret]
      have hp := decUserI_proj D W P u
      cases hd : decUserI D W P u with
      | none =>
        rw [hd] at hp
        rw [← hp]
        rfl
      | some t =>
        rw [hd] at hp
        rw [← hp]
        exact ih t.1 t.2.1 t.2.2

lemma propOutputsI_proj (g : Graph) :
    ∀ (outs : List Nat) (D : DegreeMap) (W P : List Nat),
      (propOutputsI g (D, W, P) outs).map (fun t => (t.1, t.2.1))
        = propOutputs g (D, W) outs := by
  intro outs
  induction outs with
  | nil => intro D W P; rfl
  | cons v rest ih =>
    intro D W P
    simp only [propOutputsI, propOutputs]
    have hp := propUsersI_proj g (usersOf g v) D W P
    cases hu : propUsersI g (D, W, P) (usersOf g v) with
    | none =>
      rw [hu] at hp
      rw [← hp]
      rfl
    | some t =>
      rw [hu] at hp
      rw [← hp]
      exact ih t.1 t.2.1 t.2.2

lemma propPickedI_proj (g : Graph) :
    ∀ (pend : List Nat) (D : DegreeMap) (W P : List Nat),
      (propPickedI g (D, W, P) pend).map (fun t => (t.1, t.2.1))
        = propPicked g (D, W) pend := by
  intro pend
  induction pend with
  | nil => intro D W P; rfl
  | cons n rest ih =>
    intro D W P
    simp only [propPickedI, propPicked]
    have hp := propOutputsI_proj g (g.nodes.getD n default).outputs D W P
    cases hn : propOutputsI g (D, W, P) (g.nodes.getD n default).outputs with
    | none =>
      rw [hn] at hp
      rw [← hp]
      rfl
    | some t =>
      rw [hn] at hp
      rw [← hp]
      exact ih t.1 t.2.1 t.2.2

lemma schedStepI_proj (tti : TTI) (g : Graph) (st : IState) :
    (schedStepI tti g st).map toSState = schedStep tti g (toSState st) := by
  simp only [schedStepI, schedStep, toSState]
  have hp := propPickedI_proj g (greedyPickNextNodes tti g st.res st.wl).1 st.dmap
    (greedyPickNextNodes tti g st.res st.wl).2.1 st.pushed
  cases hn : propPickedI g (st.dmap, (greedyPickNextNodes tti g st.res st.wl).2.1,
      st.pushed) (greedyPickNextNodes tti g st.res st.wl).1 with
  | none =>
    rw [hn] at hp
    rw [← hp]
    rfl
  | some t =>
    rw [hn] at hp
    rw [← hp]
    rfl

/-! ### Claim theorems -/

/-- C1: the main loop has no Time-Advance step: `updateResList` is
never called from `runOnModule`'s while loop.  On the spec's own
scenario (capacity-1 resource, ready nodes A then B) round 1 admits
only A and B stays queued — but since the resource is never released,
every later round admits nothing and the loop never terminates, instead
of admitting B in round 2. -/
theorem claim_C1_time_advance_missing :
    schedStep tti1 g1 st1initial = some st1after
    ∧ st1after.wl = [1]
    ∧ (greedyPickNextNodes tti1 g1 [] [0, 1]).1 = [0]
    ∧ schedStep tti1 g1 st1after = some st1after
    ∧ ∀ fuel, runOnModule (some tti1) [] fuel g1 = .outOfFuel := by
  refine ⟨by decide, by decide, by decide, by decide, ?_⟩
  intro fuel
  have h : runLoop tti1 g1 fuel st1initial = .outOfFuel := runLoop_g1 fuel
  simp only [runOnModule]
  have hg : InsertLoadStoreNode g1 = g1 := by decide
  rw [hg]
  have hd : BuildDegreeMap g1 = ([some 0, some 0], []) := by decide
  rw [hd]
  have hs : seedWorklist g1 [some 0, some 0] = [0, 1] := by decide
  rw [hs]
  rw [show (⟨[], [0, 1], [some 0, some 0]⟩ : SState) = st1initial from rfl, h]

/-- C2: the idempotence guard is inert.  The source line
`if (!HasInsertedLoadStoreNode(graph));` ends in a stray semicolon, so
`InsertLoadStoreNode` runs even when the last node is already a Store
marker: on `g2` (2 nodes, trailing Store) the pass produces a 4-node
graph instead of leaving the node set unchanged. -/
theorem claim_C2_guard_inert :
    HasInsertedLoadStoreNode g2 = true
    ∧ g2.nodes.length = 2
    ∧ (InsertLoadStoreNode g2).nodes.length = 4
    ∧ runOnModule (some tti2) [] 10 g2
      = .ok .kModuleNoChanged (InsertLoadStoreNode g2)
          [(⟨0, 100⟩, [⟨0, 1⟩, ⟨1, 1⟩, ⟨2, 1⟩, ⟨3, 1⟩])] := by
  decide

/-- C3: the release loop of `updateResList` erases at the loop counter
`i`, not at the recorded index `rmList[i]`.  With one resource holding
users (10 ↦ 5 cycles) and (11 ↦ 3 cycles): the minimum 3 is subtracted,
user 11 reaches zero, yet the code removes user 10 (2 cycles left) and
keeps user 11 (0 cycles left). -/
theorem claim_C3_wrong_user_released :
    updateResList [(⟨0, 2⟩, [⟨10, 5⟩, ⟨11, 3⟩])]
      = ([(⟨0, 2⟩, [⟨11, 0⟩])], 3) := by
  decide

/-- C4: the scheduling loop does not terminate on every finite acyclic
graph: on `g4` (two independent nodes, shared capacity-1 resource) the
resource saturates after round 1 and, `updateResList` never being
called, no later round can admit the second node — the worklist never
empties for any amount of fuel. -/
theorem claim_C4_loop_diverges :
    ∀ fuel, runOnModule (some tti4) [] fuel g4 = .outOfFuel := by
  intro fuel
  have h : runLoop tti4 g4 fuel ⟨[], [0, 1], [some 0, some 0]⟩ = .outOfFuel :=
    runLoop_g4 fuel
  simp only [runOnModule]
  have hg : InsertLoadStoreNode g4 = g4 := by decide
  rw [hg]
  have hd : BuildDegreeMap g4 = ([some 0, some 0], []) := by decide
  rw [hd]
  have hs : seedWorklist g4 [some 0, some 0] = [0, 1] := by decide
  rw [hs, h]

/-- C5: `BuildDegreeMap` gives every non-undefined node a degree equal
to its input count minus one per producer-less input, and the warning
stream holds exactly one warning per dangling input of each such node
(in graph order). -/
theorem claim_C5_degree_map :
    (∀ (g : Graph) (i : Nat), i < g.nodes.length →
      (g.nodes.getD i default).kind ≠ Kind.undefined →
      (BuildDegreeMap g).1.getD i none
        = some ((g.nodes.getD i default).inputs.length
                  - danglingCount g (g.nodes.getD i default)))
    ∧ ∀ g : Graph, (BuildDegreeMap g).2
        = g.nodes.flatMap (fun n =>
            if n.kind = Kind.undefined then [] else danglingWarns g n) := by
  constructor
  · intro g i hi hk
    rw [buildDegreeMap_eq]
    rw [getD_map_degEntry g g.nodes i hi]
    unfold degEntry
    rw [if_neg hk]
  · intro g
    rw [buildDegreeMap_eq]
    rfl

/-- Witness for C5 on the spec's scenario graph `g5`: node 1 has one
dangling input (value 0) and one produced input (value 1), so its
initial degree is 1 — not 2 — and exactly one warning is emitted. -/
theorem claim_C5_degree_map_witness :
    (BuildDegreeMap g5).1.getD 1 none = some 1
    ∧ (BuildDegreeMap g5).2 = [(Kind.op "Q", 0)] := by
  constructor
  · have h := claim_C5_degree_map.1 g5 1 (by decide) (by decide)
    rw [h]
    decide
  · have h := claim_C5_degree_map.2 g5
    rw [h]
    decide

/-- C6: `greedyPickNextNodes` is the single left-to-right,
order-preserving pass `greedyPickSpec` written from the spec: each
candidate is admitted (appended to the returned set, removed from the
worklist) iff its resource class is available at the moment it is
scanned, and both the admitted set and the remaining worklist are
order-preserving subsequences of the original worklist. -/
theorem claim_C6_greedy_single_pass :
    ∀ (tti : TTI) (g : Graph) (m : ResMap) (cands : List Nat),
      greedyPickNextNodes tti g m cands = greedyPickSpec tti g m cands
      ∧ (greedyPickNextNodes tti g m cands).1.Sublist cands
      ∧ (greedyPickNextNodes tti g m cands).2.1.Sublist cands := by
  intro tti g m cands
  have he := greedyPick_eq_spec tti g cands m
  have hs := greedyPickSpec_sublist tti g cands m
  exact ⟨he, by rw [he]; exact hs.1, by rw [he]; exact hs.2⟩

/-- C7: with no cost-model backend bound, `runOnModule` returns the
failure result at once: the graph and the member resource ledger are
returned exactly as given (the early return precedes `clear()` and all
other work). -/
theorem claim_C7_fail_without_backend :
    ∀ (prev : ResMap) (fuel : Nat) (g : Graph),
      runOnModule none prev fuel g = .ok .kPassFailure g prev := by
  intro prev fuel g
  rfl

/-- C8: capacity is never exceeded.  `isExeResAvailable` is true
exactly when the resource's current user count is strictly below
`numUnits`; the greedy scan (which performs every admission, and only
behind an `isExeResAvailable` check), `updateResList`, each loop step
and the whole run all preserve the invariant that no resource's user
list exceeds its capacity — in particular a run started from the
cleared ledger ends within capacity. -/
theorem claim_C8_capacity_invariant :
    (∀ (m : ResMap) (r : ExeRes) (l : List RUser),
        lookupRes m r = some l → (isExeResAvailable m r = true ↔ l.length < r.numUnits))
    ∧ (∀ (tti : TTI) (g : Graph) (cands : List Nat) (m : ResMap) (i : Nat),
        CapOK m → CapOK (greedyScan tti g m i cands).2.2)
    ∧ (∀ m : ResMap, CapOK m → CapOK (updateResList m).1)
    ∧ (∀ (tti : TTI) (g : Graph) (st st' : SState),
        CapOK st.res → schedStep tti g st = some st' → CapOK st'.res)
    ∧ (∀ (dlatb : Option TTI) (prev : ResMap) (fuel : Nat) (g : Graph)
        (r : PassRet) (g' : Graph) (ledger : ResMap),
        CapOK prev → runOnModule dlatb prev fuel g = .ok r g' ledger → CapOK ledger) := by
  refine ⟨isAvail_iff, CapOK_greedyScan, CapOK_updateResList, CapOK_schedStep, ?_⟩
  intro dlatb prev fuel g r g' ledger hprev hrun
  cases dlatb with
  | none =>
    simp only [runOnModule] at hrun
    have := RunOutcome.ok.inj hrun
    rw [← this.2.2]
    exact hprev
  | some tti =>
    simp only [runOnModule] at hrun
    cases hl : runLoop tti (InsertLoadStoreNode g) fuel
        ⟨[], seedWorklist (InsertLoadStoreNode g) (BuildDegreeMap (InsertLoadStoreNode g)).1,
         (BuildDegreeMap (InsertLoadStoreNode g)).1⟩ with
    | done st =>
      rw [hl] at hrun
      have := RunOutcome.ok.inj hrun
      rw [← this.2.2]
      exact CapOK_runLoop tti (InsertLoadStoreNode g) fuel _ st CapOK_nil hl
    | fault => rw [hl] at hrun; exact absurd hrun (by simp)
    | outOfFuel => rw [hl] at hrun; exact absurd hrun (by simp)

/-- Witness for C8: the availability criterion and the preservation
conjuncts applied at concrete ledgers. -/
theorem claim_C8_capacity_invariant_witness :
    (isExeResAvailable [(⟨0, 2⟩, [⟨7, 4⟩])] ⟨0, 2⟩ = true ↔ 1 < 2)
    ∧ CapOK (updateResList [(⟨0, 2⟩, [⟨10, 5⟩, ⟨11, 3⟩])]).1 :=
  ⟨claim_C8_capacity_invariant.1 [(⟨0, 2⟩, [⟨7, 4⟩])] ⟨0, 2⟩ [⟨7, 4⟩] (by decide),
   claim_C8_capacity_invariant.2.2.1 [(⟨0, 2⟩, [⟨10, 5⟩, ⟨11, 3⟩])]
     (by unfold CapOK; decide)⟩

/-- C9: on a well-formed graph, every node is pushed onto the worklist
at most once over the whole run (the push log of the instrumented loop
is duplicate-free at every reachable state), and a non-sentinel node
has been pushed exactly when its current degree count is zero — seeded
at zero by the initial scan or pushed at the decrement reaching zero.
The instrumented loop projects onto the plain loop step for every
state, so this is a statement about the scheduler itself. -/
theorem claim_C9_push_once (tti : TTI) (g : Graph) (hWF : WFGraph g) :
    (∀ (n : Nat) (st : IState), iterSchedI tti g n = some st →
      st.pushed.Nodup
      ∧ (∀ u, u < g.nodes.length →
          (g.nodes.getD u default).kind ≠ Kind.undefined →
          (u ∈ st.pushed ↔ st.dmap.getD u none = some 0)))
    ∧ (∀ st : IState, (schedStepI tti g st).map toSState = schedStep tti g (toSState st)) := by
  constructor
  · intro n st hst
    obtain ⟨st2, hst2, hinv⟩ := iterSchedI_inv tti g hWF n
    rw [hst] at hst2
    have h := Option.some.inj hst2
    rw [← h] at hinv
    obtain ⟨hlen, hdom, hval, hperm, hnd, hPdom, hPzero⟩ := hinv
    constructor
    · exact (List.Perm.nodup_iff hperm).mpr hnd
    · exact hPzero
  · intro st
    exact schedStepI_proj tti g st

/-- Witness for C9: the run on the two-node graph `g5` after one
iteration (node 0 admitted, node 1 pushed by propagation). -/
theorem claim_C9_push_once_witness :
    stC9.pushed.Nodup ∧ (1 ∈ stC9.pushed ↔ stC9.dmap.getD 1 none = some 0) := by
  have h := (claim_C9_push_once tti2 g5 (by constructor <;> decide)).1 1 stC9 (by decide)
  exact ⟨h.1, h.2 1 (by decide) (by decide)⟩

/-- C10: calling `updateResList` on a ledger with no active user in any
resource does not fault: the minimum stays at its initialisation
`std::numeric_limits<unsigned>::max() = 2^32 - 1`, nothing is removed,
every (empty) user list is unchanged, and `2^32 - 1` is returned. -/
theorem claim_C10_advance_on_empty :
    ∀ m : ResMap, (∀ e ∈ m, e.2 = []) → updateResList m = (m, 2 ^ 32 - 1) := by
  intro m h
  simp only [updateResList]
  rw [foldl_min_empty m h]
  rw [map_upd_empty (2 ^ 32 - 1) m h]

/-- Witness for C10 at a concrete empty-user ledger (one capacity-1
resource, one capacity-0 resource). -/
theorem claim_C10_advance_on_empty_witness :
    updateResList [(⟨0, 1⟩, []), (⟨1, 0⟩, [])]
      = ([(⟨0, 1⟩, []), (⟨1, 0⟩, [])], 2 ^ 32 - 1) :=
  claim_C10_advance_on_empty [(⟨0, 1⟩, []), (⟨1, 0⟩, [])] (by decide)

end OnncSched
